/-
  Verification of the series-selection core of zOS-PFA/Graph_JRE_Job.py
  (PFA JES2 Resource Exhaustion graphing script).

  The script loads two delimited files into typed row collections, then
  selects the observation rows for one (resource, job name) query:
  it upper-cases and blank-pads the job name, checks the name occurs in
  the data values, resolves the capacity value for the padded resource
  mnemonic, filters rows by storage code and padded job name, attaches
  the capacity, parses the timestamp column, and deduplicates to the
  latest start-time cohort.  The definitions below embed that pipeline
  over explicit lists.
-/
import Mathlib

set_option maxHeartbeats 1000000

/-- One row of the observation (data) file, after the typed load
performed by `pd.read_csv` with `converters=data_types_dict`:
columns `Key, JobName, TaskId, Start_Time, STCK_Time, Current_Usage,
Date_Time` with the string/int types of `data_types_dict`. -/
structure Row where
  key : String
  jobName : String
  taskId : String
  startTime : String
  stckTime : Int
  currentUsage : Int
  dateTime : String
deriving Repr, DecidableEq

/-- One row of the capacity file: columns `Resource, Capacity` typed by
`capacity_types_dict`. -/
structure CapRow where
  resource : String
  capacity : Int
deriving Repr, DecidableEq

/-- A calendar timestamp, the result of
`pd.to_datetime(..., format=yyyymmddhhmmss)` on one cell. -/
structure Stamp where
  year : Nat
  month : Nat
  day : Nat
  hour : Nat
  minute : Nat
  second : Nat
deriving Repr, DecidableEq

/-- One row of the processed frame returned by `process_data`: the same
columns as `Row` plus the attached `Capacity`, with `Date_Time` parsed
into a calendar timestamp. -/
structure OutRow where
  key : String
  jobName : String
  taskId : String
  startTime : String
  stckTime : Int
  currentUsage : Int
  dateTime : Stamp
  capacity : Int
deriving Repr, DecidableEq

/-- The fatal errors the script can raise during selection. -/
inductive SelErr where
  | invalidResource
  | jobNotFound
  | capacityNotFound
  | parseError
deriving Repr, DecidableEq

/-- The `keys` dictionary of the script:
`{"JQE":"Q","SPOOL":"S","BERT":"B","JOE":"J"}`; `none` models
`key not in user_keys` (the script raises there). -/
def keys (k : String) : Option String :=
  if k = "JQE" then some "Q"
  else if k = "SPOOL" then some "S"
  else if k = "BERT" then some "B"
  else if k = "JOE" then some "J"
  else none

/-- `str.upper()`: upper-case every character (the data is ASCII, where
Python's `upper` is exactly per-character upper-casing). -/
def upper (s : String) : String :=
  ⟨s.data.map Char.toUpper⟩

/-- `str.ljust(COLUMN_CHAR_LEN)` with `COLUMN_CHAR_LEN = 8`: left
justify, pad with blanks up to length 8. -/
def ljust8 (s : String) : String :=
  if s.length < 8 then s.pushn ' ' (8 - s.length) else s

/-- Normalization applied to the supplied job name: `jobName.upper()`
at argument parsing (line 54), then `ljust(COLUMN_CHAR_LEN)` when
shorter than 8 characters (lines 111-112). -/
def normalizeJob (j : String) : String :=
  ljust8 (upper j)

/-- `jobName in data_file.values` (line 115): membership of the padded
job name in any cell of the data frame.  The integer columns and the
float `Capacity` column can never equal a string, so only the five
string columns matter. -/
def jobInValues (obs : List Row) (j : String) : Bool :=
  obs.any fun r =>
    r.key == j || r.jobName == j || r.taskId == j ||
      r.startTime == j || r.dateTime == j

/-- `capacity_file.loc[capacity_file[Resource] == user_key,'Capacity'].values[0]`
(line 126): the capacity of the first row whose `Resource` equals the
padded mnemonic; `none` models the IndexError on an empty selection. -/
def lookupCapacity (caps : List CapRow) (res : String) : Option Int :=
  (caps.find? fun c => c.resource == res).map (·.capacity)

/-- Numeric value of a decimal digit character. -/
def digitVal (c : Char) : Option Nat :=
  if c.isDigit then some (c.toNat - 48) else none

/-- Decimal number denoted by a digit list; `none` on a non-digit. -/
def natOfDigits (cs : List Char) : Option Nat :=
  cs.foldl (fun acc c => acc.bind fun n => (digitVal c).map fun d => n * 10 + d)
    (some 0)

/-- Gregorian leap-year test. -/
def isLeap (y : Nat) : Bool :=
  (y % 4 == 0 && y % 100 != 0) || y % 400 == 0

/-- Number of days of a month (1-12). -/
def daysInMonth (y m : Nat) : Nat :=
  if m = 2 then (if isLeap y then 29 else 28)
  else if m = 4 ∨ m = 6 ∨ m = 9 ∨ m = 11 then 30
  else 31

/-- `pd.to_datetime(cell, format=yyyymmddhhmmss)` on one cell (line
130): the cell must be exactly 14 decimal digits denoting a valid
calendar timestamp; `none` models the raised parse error. -/
def parseStamp (s : String) : Option Stamp :=
  let cs := s.data
  if cs.length = 14 ∧ cs.all Char.isDigit then
    match natOfDigits (cs.take 4), natOfDigits ((cs.drop 4).take 2),
        natOfDigits ((cs.drop 6).take 2), natOfDigits ((cs.drop 8).take 2),
        natOfDigits ((cs.drop 10).take 2), natOfDigits ((cs.drop 12).take 2) with
    | some y, some mo, some d, some h, some mi, some se =>
      if 1 ≤ mo ∧ mo ≤ 12 ∧ 1 ≤ d ∧ d ≤ daysInMonth y mo ∧
          h ≤ 23 ∧ mi ≤ 59 ∧ se ≤ 59 then
        some ⟨y, mo, d, h, mi, se⟩
      else none
    | _, _, _, _, _, _ => none
  else none

/-- Lines 128-130 of the script applied to one selected row: fill the
`Capacity` column with the resolved value and coerce it to int, and
convert `Date_Time` to a timestamp (`none` models the parse error). -/
def parseRow (c : Int) (r : Row) : Option OutRow :=
  (parseStamp r.dateTime).map fun dt =>
    { key := r.key, jobName := r.jobName, taskId := r.taskId,
      startTime := r.startTime, stckTime := r.stckTime,
      currentUsage := r.currentUsage, dateTime := dt, capacity := c }

/-- The fill/coerce/convert stage applied to the whole filtered frame,
in row order. -/
def parseRows (rows : List Row) (c : Int) : Option (List OutRow) :=
  rows.mapM (parseRow c)

/-- Lexicographic comparison of char lists by code point, Python's `<`
on strings. -/
def charListLt : List Char → List Char → Bool
  | [], [] => false
  | [], _ :: _ => true
  | _ :: _, [] => false
  | a :: as, b :: bs =>
    if a < b then true else if b < a then false else charListLt as bs

/-- Python's `<` on strings: lexicographic by code point. -/
def strLt (a b : String) : Bool :=
  charListLt a.data b.data

/-- The binary step of Python's `max`: keep the candidate unless the
new item is strictly greater. -/
def strMax (a b : String) : String :=
  if strLt a b then b else a

/-- `max(times_dict.keys())`: the lexicographic maximum of a list of
strings, as Python's `max` computes it (the empty case never arises at
the call site, which requires more than one distinct value). -/
def maxStr : List String → String
  | [] => ""
  | h :: t => t.foldl strMax h

/-- `get_latest_time(our_data)` (lines 164-177): collect the distinct
`Start_Time` values (the keys of `times_dict`); when more than one is
present, keep only the rows whose `Start_Time` equals the maximum
value; otherwise return the frame unchanged. -/
def get_latest_time (ourData : List OutRow) : List OutRow :=
  if 1 < ((ourData.map (·.startTime)).dedup).length then
    ourData.filter fun r =>
      r.startTime == maxStr ((ourData.map (·.startTime)).dedup)
  else ourData

/-- The selection pipeline of the script for one invocation, from the
typed row collections to the processed frame handed to `graph_data`:
upper-case the resource and reject unknown mnemonics (lines 56, 91);
upper-case and pad the job name (lines 54, 111-112); require the padded
name to occur in the data values (line 115); then `process_data`
(lines 125-134): resolve the capacity for the padded mnemonic, filter
by storage code and padded job name, fill the capacity, parse the
timestamps, and deduplicate to the latest start-time cohort. -/
def select (obs : List Row) (caps : List CapRow) (resource jobArg : String) :
    Except SelErr (List OutRow) :=
  match keys (upper resource) with
  | none => .error .invalidResource
  | some code =>
    if jobInValues obs (normalizeJob jobArg) then
      match lookupCapacity caps (ljust8 (upper resource)) with
      | none => .error .capacityNotFound
      | some c =>
        match parseRows
            (obs.filter fun r => r.key == code && r.jobName == normalizeJob jobArg) c with
        | none => .error .parseError
        | some rows => .ok (get_latest_time rows)
    else .error .jobNotFound

/-- The end-to-end example's observation rows. -/
def exObs : List Row :=
  [⟨"Q", "JOB1    ", "T1", "100", 1, 500, "20210101000000"⟩,
   ⟨"Q", "JOB1    ", "T1", "100", 1, 600, "20210101000100"⟩,
   ⟨"Q", "JOB1    ", "T2", "200", 2, 50, "20210101000200"⟩]

/-- The end-to-end example's capacity table. -/
def exCaps : List CapRow := [⟨"JQE     ", 1000⟩]

/-- The series the end-to-end example selects. -/
def exOut : List OutRow :=
  [⟨"Q", "JOB1    ", "T2", "200", 2, 50, ⟨2021, 1, 1, 0, 2, 0⟩, 1000⟩]

instance : DecidableEq (Except SelErr (List OutRow)) := fun a b =>
  match a, b with
  | .ok x, .ok y => decidable_of_iff (x = y) (by simp)
  | .error x, .error y => decidable_of_iff (x = y) (by simp)
  | .ok _, .error _ => isFalse (by simp)
  | .error _, .ok _ => isFalse (by simp)

/-! ### The boolean comparison agrees with the string order -/

theorem charListLt_iff :
    ∀ cs ds : List Char, charListLt cs ds = true ↔ List.Lex (· < ·) cs ds
  | [], [] => by simp [charListLt]
  | [], _ :: _ => iff_of_true rfl List.Lex.nil
  | _ :: _, [] => by simp [charListLt]
  | c :: cs, d :: ds => by
    unfold charListLt
    rcases lt_trichotomy c d with h | h | h
    · rw [if_pos h]
      exact iff_of_true rfl (List.Lex.rel h)
    · subst h
      rw [if_neg (lt_irrefl c), if_neg (lt_irrefl c), charListLt_iff cs ds]
      constructor
      · exact List.Lex.cons
      · intro hl
        cases hl with
        | cons h => exact h
        | rel h => exact absurd h (lt_irrefl c)
    · rw [if_neg (asymm h), if_pos h]
      constructor
      · intro hF
        exact absurd hF (by simp)
      · intro hl
        cases hl with
        | cons h' => exact absurd h (lt_irrefl c)
        | rel h' => exact absurd h' (asymm h)

theorem strLt_iff_lt (a b : String) : strLt a b = true ↔ a < b := by
  rw [String.lt_iff_toList_lt]
  exact charListLt_iff a.data b.data

theorem le_strMax_left (a b : String) : a ≤ strMax a b := by
  unfold strMax
  by_cases h : strLt a b = true
  · rw [if_pos h]
    exact le_of_lt ((strLt_iff_lt a b).1 h)
  · rw [if_neg h]

theorem le_strMax_right (a b : String) : b ≤ strMax a b := by
  unfold strMax
  by_cases h : strLt a b = true
  · rw [if_pos h]
  · rw [if_neg h]
    exact not_lt.1 fun hl => h ((strLt_iff_lt a b).2 hl)

theorem foldl_strMax_mem (t : List String) :
    ∀ a, t.foldl strMax a = a ∨ t.foldl strMax a ∈ t := by
  induction t with
  | nil => intro a; exact Or.inl rfl
  | cons b t ih =>
    intro a
    rcases ih (strMax a b) with he | hm
    · rw [List.foldl_cons, he]
      unfold strMax
      by_cases h : strLt a b = true
      · rw [if_pos h]
        exact Or.inr (List.mem_cons_self b t)
      · rw [if_neg h]
        exact Or.inl rfl
    · exact Or.inr (List.mem_cons_of_mem b hm)

theorem le_foldl_strMax (t : List String) :
    ∀ a x, (x = a ∨ x ∈ t) → x ≤ t.foldl strMax a := by
  induction t with
  | nil =>
    intro a x hx
    rcases hx with rfl | hm
    · exact le_refl x
    · exact absurd hm (List.not_mem_nil x)
  | cons b t ih =>
    intro a x hx
    rw [List.foldl_cons]
    rcases hx with rfl | hm
    · exact le_trans (le_strMax_left x b) (ih (strMax x b) _ (Or.inl rfl))
    · rcases List.mem_cons.1 hm with rfl | hm'
      · exact le_trans (le_strMax_right a x) (ih (strMax a x) _ (Or.inl rfl))
      · exact ih (strMax a b) x (Or.inr hm')

theorem maxStr_mem {l : List String} (h : l ≠ []) : maxStr l ∈ l := by
  cases l with
  | nil => exact absurd rfl h
  | cons a t =>
    simp only [maxStr]
    rcases foldl_strMax_mem t a with he | hm
    · rw [he]
      exact List.mem_cons_self a t
    · exact List.mem_cons_of_mem a hm

theorem le_maxStr {l : List String} {x : String} (hx : x ∈ l) : x ≤ maxStr l := by
  cases l with
  | nil => exact absurd hx (List.not_mem_nil x)
  | cons a t =>
    simp only [maxStr]
    rcases List.mem_cons.1 hx with rfl | hm
    · exact le_foldl_strMax t x x (Or.inl rfl)
    · exact le_foldl_strMax t a x (Or.inr hm)

/-! ### Facts about the latest-cohort deduplication -/

theorem eq_of_mem_of_len_le_one {α : Type} {m : List α} (h : m.length ≤ 1)
    {a b : α} (ha : a ∈ m) (hb : b ∈ m) : a = b := by
  match m with
  | [] => exact absurd ha (List.not_mem_nil a)
  | [x] =>
    rw [List.mem_singleton] at ha hb
    rw [ha, hb]
  | x :: y :: t => simp at h

theorem dedup_len_le_one_of_all_eq {α : Type} [DecidableEq α] {m : List α}
    (h : ∀ a ∈ m, ∀ b ∈ m, a = b) : m.dedup.length ≤ 1 := by
  rcases hd : m.dedup with _ | ⟨x, _ | ⟨y, t⟩⟩
  · simp
  · simp
  · exfalso
    have hx : x ∈ m.dedup := by rw [hd]; exact List.mem_cons_self x _
    have hy : y ∈ m.dedup := by rw [hd]; exact List.mem_cons_of_mem x (List.mem_cons_self y t)
    have hxy : x = y := h x (List.mem_dedup.1 hx) y (List.mem_dedup.1 hy)
    have hnd : m.dedup.Nodup := List.nodup_dedup m
    rw [hd, List.nodup_cons] at hnd
    exact hnd.1 (hxy ▸ List.mem_cons_self y t)

theorem glt_sublist (l : List OutRow) : (get_latest_time l).Sublist l := by
  unfold get_latest_time
  by_cases h : 1 < ((l.map (·.startTime)).dedup).length
  · rw [if_pos h]
    exact List.filter_sublist l
  · rw [if_neg h]

theorem glt_mem {l : List OutRow} {r : OutRow} (h : r ∈ get_latest_time l) : r ∈ l :=
  (glt_sublist l).subset h

theorem glt_startTime_eq (l : List OutRow) :
    ∀ r ∈ get_latest_time l, ∀ s ∈ get_latest_time l, r.startTime = s.startTime := by
  intro r hr s hs
  unfold get_latest_time at hr hs
  by_cases h : 1 < ((l.map (·.startTime)).dedup).length
  · rw [if_pos h] at hr hs
    have h1 := (List.mem_filter.1 hr).2
    have h2 := (List.mem_filter.1 hs).2
    rw [beq_iff_eq] at h1 h2
    rw [h1, h2]
  · rw [if_neg h] at hr hs
    exact eq_of_mem_of_len_le_one (Nat.le_of_not_lt h)
      (List.mem_dedup.2 (List.mem_map_of_mem (·.startTime) hr))
      (List.mem_dedup.2 (List.mem_map_of_mem (·.startTime) hs))

theorem glt_max (l : List OutRow) :
    ∀ r ∈ get_latest_time l, ∀ t ∈ l.map (·.startTime), t ≤ r.startTime := by
  intro r hr t ht
  unfold get_latest_time at hr
  by_cases h : 1 < ((l.map (·.startTime)).dedup).length
  · rw [if_pos h] at hr
    have h1 := (List.mem_filter.1 hr).2
    rw [beq_iff_eq] at h1
    rw [h1]
    exact le_maxStr (List.mem_dedup.2 ht)
  · rw [if_neg h] at hr
    have := eq_of_mem_of_len_le_one (Nat.le_of_not_lt h)
      (List.mem_dedup.2 ht)
      (List.mem_dedup.2 (List.mem_map_of_mem (·.startTime) hr))
    rw [this]

theorem glt_startTime_mem (l : List OutRow) :
    ∀ r ∈ get_latest_time l, r.startTime ∈ l.map (·.startTime) := by
  intro r hr
  exact List.mem_map_of_mem (·.startTime) (glt_mem hr)

theorem glt_ne_nil {l : List OutRow} (h : l ≠ []) : get_latest_time l ≠ [] := by
  unfold get_latest_time
  by_cases hl : 1 < ((l.map (·.startTime)).dedup).length
  · rw [if_pos hl]
    have hne : (l.map (·.startTime)).dedup ≠ [] := by
      intro h0
      rw [h0] at hl
      simp at hl
    obtain ⟨r, hr, hrs⟩ :=
      List.mem_map.1 (List.mem_dedup.1 (maxStr_mem hne))
    intro hF
    have : r ∈ l.filter fun s =>
        s.startTime == maxStr ((l.map (·.startTime)).dedup) :=
      List.mem_filter.2 ⟨hr, beq_iff_eq.2 hrs⟩
    rw [hF] at this
    exact absurd this (List.not_mem_nil r)
  · rw [if_neg hl]
    exact h

theorem glt_eq_self_of_le_one {l : List OutRow}
    (h : ((l.map (·.startTime)).dedup).length ≤ 1) : get_latest_time l = l := by
  unfold get_latest_time
  rw [if_neg (Nat.not_lt.2 h)]

theorem glt_idem (l : List OutRow) :
    get_latest_time (get_latest_time l) = get_latest_time l := by
  apply glt_eq_self_of_le_one
  apply dedup_len_le_one_of_all_eq
  intro a ha b hb
  obtain ⟨r, hr, hra⟩ := List.mem_map.1 ha
  obtain ⟨s, hs, hsb⟩ := List.mem_map.1 hb
  rw [← hra, ← hsb]
  exact glt_startTime_eq l r hr s hs

/-! ### Facts about the fill/convert stage -/

theorem parseRow_some {c : Int} {r : Row} {o : OutRow} (h : parseRow c r = some o) :
    o.key = r.key ∧ o.jobName = r.jobName ∧ o.taskId = r.taskId ∧
      o.startTime = r.startTime ∧ o.stckTime = r.stckTime ∧
      o.currentUsage = r.currentUsage ∧ parseStamp r.dateTime = some o.dateTime ∧
      o.capacity = c := by
  unfold parseRow at h
  cases hp : parseStamp r.dateTime with
  | none =>
    rw [hp] at h
    simp at h
  | some dt =>
    rw [hp] at h
    rw [Option.map_some'] at h
    have h' := Option.some.inj h
    subst h'
    exact ⟨rfl, rfl, rfl, rfl, rfl, rfl, rfl, rfl⟩

theorem mapM_some_forall2 {α β : Type} (f : α → Option β) :
    ∀ {l : List α} {out : List β}, l.mapM f = some out →
      List.Forall₂ (fun a b => f a = some b) l out := by
  intro l
  induction l with
  | nil =>
    intro out h
    rw [List.mapM_nil] at h
    cases Option.some.inj h
    exact List.Forall₂.nil
  | cons a l ih =>
    intro out h
    rw [List.mapM_cons] at h
    cases hfa : f a with
    | none =>
      rw [hfa] at h
      simp at h
    | some b =>
      rw [hfa] at h
      cases hml : l.mapM f with
      | none =>
        rw [hml] at h
        simp at h
      | some bs =>
        rw [hml] at h
        simp only [Option.some_bind, Option.pure_def] at h
        cases Option.some.inj h
        exact List.Forall₂.cons hfa (ih hml)

theorem forall2_mem_right {α β : Type} {R : α → β → Prop} :
    ∀ {l : List α} {out : List β}, List.Forall₂ R l out →
      ∀ {b : β}, b ∈ out → ∃ a ∈ l, R a b := by
  intro l out h
  induction h with
  | nil =>
    intro b hb
    exact absurd hb (List.not_mem_nil b)
  | @cons a b l' out' hR hF ih =>
    intro x hx
    rcases List.mem_cons.1 hx with rfl | hx'
    · exact ⟨a, List.mem_cons_self a l', hR⟩
    · obtain ⟨a', ha', hra⟩ := ih hx'
      exact ⟨a', List.mem_cons_of_mem a ha', hra⟩

theorem forall2_parse_map_startTime {c : Int} :
    ∀ {l : List Row} {out : List OutRow},
      List.Forall₂ (fun a b => parseRow c a = some b) l out →
      out.map (·.startTime) = l.map (·.startTime) := by
  intro l out h
  induction h with
  | nil => rfl
  | @cons a b l' out' hR hF ih =>
    simp only [List.map_cons, ih]
    rw [(parseRow_some hR).2.2.2.1]

/-! ### Inversion of a successful selection -/

theorem select_ok_inv {obs : List Row} {caps : List CapRow} {rk jn : String}
    {s : List OutRow} (h : select obs caps rk jn = .ok s) :
    ∃ code c rows, keys (upper rk) = some code ∧
      jobInValues obs (normalizeJob jn) = true ∧
      lookupCapacity caps (ljust8 (upper rk)) = some c ∧
      parseRows (obs.filter fun r => r.key == code && r.jobName == normalizeJob jn) c
        = some rows ∧
      s = get_latest_time rows := by
  unfold select at h
  split at h
  next hk => simp at h
  next code hk =>
    split at h
    next hj =>
      split at h
      next hc => simp at h
      next c hc =>
        split at h
        next hp => simp at h
        next rows hp =>
          exact ⟨code, c, rows, hk, hj, hc, hp, (Except.ok.inj h).symm⟩
    next hj => simp at h

theorem select_ok_src {obs : List Row} {caps : List CapRow} {rk jn : String}
    {s : List OutRow} {code : String} (hcode : keys (upper rk) = some code)
    (h : select obs caps rk jn = .ok s) :
    ∀ r ∈ s, ∃ src ∈ obs, src.key = code ∧ src.jobName = normalizeJob jn ∧
      r.key = src.key ∧ r.jobName = src.jobName ∧ r.taskId = src.taskId ∧
      r.startTime = src.startTime ∧ r.stckTime = src.stckTime ∧
      r.currentUsage = src.currentUsage ∧ parseStamp src.dateTime = some r.dateTime := by
  obtain ⟨code', c, rows, hk, hj, hc, hp, hs⟩ := select_ok_inv h
  rw [hcode] at hk
  cases Option.some.inj hk
  intro r hr
  have hrr : r ∈ rows := glt_mem (hs ▸ hr)
  unfold parseRows at hp
  obtain ⟨src, hsrc, hR⟩ := forall2_mem_right (mapM_some_forall2 (parseRow c) hp) hrr
  have hsf := List.mem_filter.1 hsrc
  have hpred := hsf.2
  rw [Bool.and_eq_true, beq_iff_eq, beq_iff_eq] at hpred
  obtain ⟨h1, h2, h3, h4, h5, h6, h7, _⟩ := parseRow_some hR
  exact ⟨src, hsf.1, hpred.1, hpred.2, h1, h2, h3, h4, h5, h6, h7⟩

theorem select_ok_cap {obs : List Row} {caps : List CapRow} {rk jn : String}
    {s : List OutRow} {c : Int}
    (hok : select obs caps rk jn = .ok s)
    (hc : lookupCapacity caps (ljust8 (upper rk)) = some c) :
    ∀ r ∈ s, r.capacity = c := by
  obtain ⟨code, c', rows, hk, hj, hc', hp, hs⟩ := select_ok_inv hok
  rw [hc] at hc'
  cases Option.some.inj hc'
  intro r hr
  have hrr : r ∈ rows := glt_mem (hs ▸ hr)
  unfold parseRows at hp
  obtain ⟨src, hsrc, hR⟩ := forall2_mem_right (mapM_some_forall2 (parseRow c) hp) hrr
  exact (parseRow_some hR).2.2.2.2.2.2.2

/-! ### Claims -/

/-- C1: on the end-to-end example (three observation rows for
`JOB1    `, capacity row `(JQE     , 1000)`, query
`job_name=JOB1, resource=JQE`), select returns exactly one row,
`(date_time=2021-01-01T00:02:00, current_usage=50, capacity=1000)`,
because only the `start_time="200"` cohort (the maximum) survives
deduplication. -/
theorem end_to_end_jqe_job1 :
    select exObs exCaps "JQE" "JOB1" =
      .ok [⟨"Q", "JOB1    ", "T2", "200", 2, 50, ⟨2021, 1, 1, 0, 2, 0⟩, 1000⟩] := by
  decide

/-- C3: on any frame reaching cohort deduplication, if more than one
distinct `start_time` is present the step keeps exactly the rows whose
`start_time` equals the maximum value under the string order (and all
rows sharing that winning value are kept, since a filter keeps every
match); with at most one distinct value the frame is unchanged. -/
theorem latest_cohort_dedup (l : List OutRow) :
    (1 < ((l.map (·.startTime)).dedup).length →
      ∃ M, M ∈ l.map (·.startTime) ∧ (∀ t ∈ l.map (·.startTime), t ≤ M) ∧
        get_latest_time l = l.filter fun r => r.startTime == M) ∧
    (((l.map (·.startTime)).dedup).length ≤ 1 → get_latest_time l = l) := by
  constructor
  · intro h
    refine ⟨maxStr ((l.map (·.startTime)).dedup), ?_, ?_, ?_⟩
    · have hne : (l.map (·.startTime)).dedup ≠ [] := by
        intro h0
        rw [h0] at h
        simp at h
      exact List.mem_dedup.1 (maxStr_mem hne)
    · intro t ht
      exact le_maxStr (List.mem_dedup.2 ht)
    · unfold get_latest_time
      rw [if_pos h]
  · exact fun h => glt_eq_self_of_le_one h

/-- A two-cohort frame exercising the deduplication step. -/
def c3Rows : List OutRow :=
  [⟨"Q", "JOB1    ", "T1", "100", 1, 500, ⟨2021, 1, 1, 0, 0, 0⟩, 1000⟩,
   ⟨"Q", "JOB1    ", "T2", "200", 2, 50, ⟨2021, 1, 1, 0, 2, 0⟩, 1000⟩]

/-- Witness for C3 at a concrete two-cohort frame. -/
theorem latest_cohort_dedup_witness :
    ∃ M, M ∈ c3Rows.map (·.startTime) ∧
      (∀ t ∈ c3Rows.map (·.startTime), t ≤ M) ∧
      get_latest_time c3Rows = c3Rows.filter fun r => r.startTime == M :=
  (latest_cohort_dedup c3Rows).1 (by decide)

/-- C4: cohort deduplication is idempotent on every series returned by
select, and every returned row's `start_time` is the maximum
`start_time` among the rows matched by the storage code and padded job
name (it occurs among them and dominates all of them). -/
theorem dedup_idempotent_on_selection
    (obs : List Row) (caps : List CapRow) (rk jn : String) (s : List OutRow)
    (code : String) (hcode : keys (upper rk) = some code)
    (hok : select obs caps rk jn = .ok s) :
    get_latest_time s = s ∧
      ∀ r ∈ s,
        r.startTime ∈
          ((obs.filter fun o => o.key == code && o.jobName == normalizeJob jn).map
            (·.startTime)) ∧
        ∀ t ∈ ((obs.filter fun o => o.key == code && o.jobName == normalizeJob jn).map
            (·.startTime)), t ≤ r.startTime := by
  obtain ⟨code', c, rows, hk, hj, hc, hp, hs⟩ := select_ok_inv hok
  rw [hcode] at hk
  cases Option.some.inj hk
  subst hs
  have hmapeq : rows.map (·.startTime) =
      (obs.filter fun o => o.key == code && o.jobName == normalizeJob jn).map
        (·.startTime) := by
    unfold parseRows at hp
    exact forall2_parse_map_startTime (mapM_some_forall2 _ hp)
  refine ⟨glt_idem rows, ?_⟩
  intro r hr
  constructor
  · rw [← hmapeq]
    exact glt_startTime_mem rows r hr
  · intro t ht
    rw [← hmapeq] at ht
    exact glt_max rows r hr t ht

/-- Witness for C4 at the end-to-end example. -/
theorem dedup_idempotent_on_selection_witness :
    get_latest_time exOut = exOut ∧
      ∀ r ∈ exOut,
        r.startTime ∈
          ((exObs.filter fun o => o.key == "Q" && o.jobName == normalizeJob "JOB1").map
            (·.startTime)) ∧
        ∀ t ∈ ((exObs.filter fun o => o.key == "Q" && o.jobName == normalizeJob "JOB1").map
            (·.startTime)), t ≤ r.startTime :=
  dedup_idempotent_on_selection exObs exCaps "JQE" "JOB1" exOut "Q"
    (by decide) (by decide)

/-- C5: job-name matching is case- and width-insensitive in the query
argument: for any fixed input files, querying with `job3` and with the
pre-padded `JOB3    ` yield identical results, because the supplied
name is upper-cased and blank-padded to 8 characters before
comparison. -/
theorem job_name_case_width_insensitive
    (obs : List Row) (caps : List CapRow) (rk : String) :
    select obs caps rk "job3" = select obs caps rk "JOB3    " := by
  unfold select
  rw [show normalizeJob "job3" = normalizeJob "JOB3    " from by decide]

/-- C2: whenever select succeeds and at least one observation row
matches the storage code and padded job name, the returned series is
non-empty, every row carries the single resolved capacity `C`, every
row has the queried key and padded job name and all rows share one
`start_time` (one cohort), and `current_usage` and `date_time` are
passthrough from source rows, only type-coerced. -/
theorem selected_series_invariants
    (obs : List Row) (caps : List CapRow) (rk jn : String) (s : List OutRow)
    (code : String) (hcode : keys (upper rk) = some code)
    (hmatch : ∃ r ∈ obs, r.key = code ∧ r.jobName = normalizeJob jn)
    (hok : select obs caps rk jn = .ok s) :
    s ≠ [] ∧
      (∃ C, lookupCapacity caps (ljust8 (upper rk)) = some C ∧
        ∀ r ∈ s, r.capacity = C) ∧
      (∀ r ∈ s, r.key = code ∧ r.jobName = normalizeJob jn) ∧
      (∀ r ∈ s, ∀ r' ∈ s, r.startTime = r'.startTime) ∧
      (∀ r ∈ s, ∃ src ∈ obs, r.currentUsage = src.currentUsage ∧
        parseStamp src.dateTime = some r.dateTime) := by
  obtain ⟨code', c, rows, hk, hj, hc, hp, hs⟩ := select_ok_inv hok
  rw [hcode] at hk
  cases Option.some.inj hk
  have hsrc := select_ok_src hcode hok
  refine ⟨?_, ⟨c, hc, select_ok_cap hok hc⟩, ?_, ?_, ?_⟩
  · obtain ⟨r0, hr0, hk0, hn0⟩ := hmatch
    have hf : r0 ∈ obs.filter fun o => o.key == code && o.jobName == normalizeJob jn := by
      refine List.mem_filter.2 ⟨hr0, ?_⟩
      rw [Bool.and_eq_true, beq_iff_eq, beq_iff_eq]
      exact ⟨hk0, hn0⟩
    unfold parseRows at hp
    have hlen := (mapM_some_forall2 (parseRow c) hp).length_eq
    have hrows : rows ≠ [] := by
      intro h0
      rw [h0, List.length_nil] at hlen
      exact absurd hf (List.eq_nil_of_length_eq_zero hlen ▸ List.not_mem_nil r0)
    rw [hs]
    exact glt_ne_nil hrows
  · intro r hr
    obtain ⟨src, _, hsk, hsn, h1, h2, _⟩ := hsrc r hr
    exact ⟨h1.trans hsk, h2.trans hsn⟩
  · intro r hr r' hr'
    rw [hs] at hr hr'
    exact glt_startTime_eq rows r hr r' hr'
  · intro r hr
    obtain ⟨src, hmem, _, _, _, _, _, _, _, h6, h7⟩ := hsrc r hr
    exact ⟨src, hmem, h6, h7⟩

/-- Witness for C2 at the end-to-end example. -/
theorem selected_series_invariants_witness :
    exOut ≠ [] ∧
      (∃ C, lookupCapacity exCaps (ljust8 (upper "JQE")) = some C ∧
        ∀ r ∈ exOut, r.capacity = C) ∧
      (∀ r ∈ exOut, r.key = "Q" ∧ r.jobName = normalizeJob "JOB1") ∧
      (∀ r ∈ exOut, ∀ r' ∈ exOut, r.startTime = r'.startTime) ∧
      (∀ r ∈ exOut, ∃ src ∈ exObs, r.currentUsage = src.currentUsage ∧
        parseStamp src.dateTime = some r.dateTime) :=
  selected_series_invariants exObs exCaps "JQE" "JOB1" exOut "Q"
    (by decide) (by decide) (by decide)

/-- C6: when the capacity table holds more than one row whose
`Resource` equals the padded mnemonic, the value resolved for the query
is the one of the first matching row: every selected row carries the
first match's capacity. -/
theorem capacity_first_match_wins
    (obs : List Row) (pre mid post : List CapRow) (c1 c2 : CapRow)
    (rk jn : String) (s : List OutRow)
    (hpre : ∀ x ∈ pre, x.resource ≠ ljust8 (upper rk))
    (h1 : c1.resource = ljust8 (upper rk))
    (hok : select obs (pre ++ c1 :: mid ++ c2 :: post) rk jn = .ok s) :
    ∀ r ∈ s, r.capacity = c1.capacity := by
  apply select_ok_cap hok
  unfold lookupCapacity
  have hpre' : pre.find? (fun c => c.resource == ljust8 (upper rk)) = none := by
    rw [List.find?_eq_none]
    intro x hx
    simp only [beq_iff_eq]
    exact hpre x hx
  have hc1 : List.find? (fun c => c.resource == ljust8 (upper rk)) (c1 :: mid)
      = some c1 := by
    apply List.find?_cons_of_pos
    exact beq_iff_eq.2 h1
  rw [List.find?_append, List.find?_append, hpre', Option.none_or, hc1]
  rfl

/-- Witness for C6: with two `JQE     ` rows (capacities 1000 then
999), the selected row carries 1000, the first match. -/
theorem capacity_first_match_wins_witness :
    (OutRow.mk "Q" "JOB1    " "T2" "200" 2 50 ⟨2021, 1, 1, 0, 2, 0⟩ 1000).capacity
      = (CapRow.mk "JQE     " 1000).capacity :=
  capacity_first_match_wins exObs [] [] [] ⟨"JQE     ", 1000⟩ ⟨"JQE     ", 999⟩
    "JQE" "JOB1" exOut (by simp) (by decide) (by decide)
    (OutRow.mk "Q" "JOB1    " "T2" "200" 2 50 ⟨2021, 1, 1, 0, 2, 0⟩ 1000)
    (by decide)

/-- A data file in which `JOBY    ` occurs only as a TaskId, never as a
JobName. -/
def c7Obs : List Row :=
  [⟨"Q", "JOBX    ", "JOBY    ", "100", 1, 500, "20210101000000"⟩]

/-- C7 counterexample: no observation row's `JobName` equals the
normalized query name `JOBY    `, yet select does not fail — the
membership test `jobName in data_file.values` scans every cell, the
name matches the `TaskId` cell, and selection proceeds to return an
empty series. -/
theorem job_not_found_any_cell_cex :
    (∀ r ∈ c7Obs, r.jobName ≠ normalizeJob "JOBY") ∧
      select c7Obs exCaps "JQE" "JOBY" = .ok [] := by
  decide

/-- C7 (amended): when the normalized job name occurs in no cell of the
observation data, select fails with the job-not-found error, and it
does so before capacity resolution: the conclusion holds for every
capacity table, including one lacking the resource. -/
theorem job_not_found_before_capacity
    (obs : List Row) (caps : List CapRow) (rk jn : String) (code : String)
    (hcode : keys (upper rk) = some code)
    (habs : jobInValues obs (normalizeJob jn) = false) :
    select obs caps rk jn = .error .jobNotFound := by
  unfold select
  rw [hcode]
  dsimp only
  rw [if_neg]
  rw [habs]
  exact Bool.false_ne_true

/-- A data file not containing `JOBY    ` in any cell. -/
def c7wObs : List Row :=
  [⟨"Q", "JOBX    ", "T1", "100", 1, 500, "20210101000000"⟩]

/-- Witness for the amended C7, with an empty capacity table to
exhibit the precedence of the job check over capacity resolution. -/
theorem job_not_found_before_capacity_witness :
    select c7wObs [] "JQE" "JOBY" = .error .jobNotFound :=
  job_not_found_before_capacity c7wObs [] "JQE" "JOBY" "Q" (by decide) (by decide)

/-- C8: when no capacity row's `Resource` equals the padded mnemonic,
select fails before any observation filtering by key and job name:
with the resource missing it reports capacity-not-found whenever the
job-name membership check passes, and the earlier job-not-found
otherwise — in both cases a not-found error, never a series. -/
theorem missing_capacity_fails
    (obs : List Row) (caps : List CapRow) (rk jn : String) (code : String)
    (hcode : keys (upper rk) = some code)
    (hcap : ∀ x ∈ caps, x.resource ≠ ljust8 (upper rk)) :
    select obs caps rk jn =
      .error (if jobInValues obs (normalizeJob jn) then SelErr.capacityNotFound
        else SelErr.jobNotFound) := by
  have hlook : lookupCapacity caps (ljust8 (upper rk)) = none := by
    unfold lookupCapacity
    rw [List.find?_eq_none.2 fun x hx => by
      simp only [beq_iff_eq]
      exact hcap x hx]
    rfl
  unfold select
  rw [hcode]
  dsimp only
  by_cases hj : jobInValues obs (normalizeJob jn) = true
  · rw [if_pos hj, if_pos hj, hlook]
  · rw [if_neg hj, if_neg hj]

/-- Witness for C8: data contains the job, capacity table is empty. -/
theorem missing_capacity_fails_witness :
    select exObs [] "JQE" "JOB1" =
      .error (if jobInValues exObs (normalizeJob "JOB1") then SelErr.capacityNotFound
        else SelErr.jobNotFound) :=
  missing_capacity_fails exObs [] "JQE" "JOB1" "Q" (by decide) (by simp)

/-- A data file whose only `JOB1    ` rows are under key `S`, not `Q`. -/
def c9Obs : List Row :=
  [⟨"S", "JOB1    ", "T1", "100", 1, 500, "20210101000000"⟩]

/-- C9 counterexample: the key/job-name filter selects nothing, yet
select does not fail — it returns the empty series, because the only
existence check (`jobName in data_file.values`) already passed on cells
of non-matching rows. -/
theorem empty_filter_no_failure_cex :
    (c9Obs.filter fun r => r.key == "Q" && r.jobName == normalizeJob "JOB1") = [] ∧
      select c9Obs exCaps "JQE" "JOB1" = .ok [] := by
  decide

/-- C9 (amended): when the padded job name occurs somewhere in the data
values but the filter by storage code and padded job name selects no
row, select returns the empty series rather than failing. -/
theorem empty_filter_returns_empty_series
    (obs : List Row) (caps : List CapRow) (rk jn : String) (code : String) (c : Int)
    (hcode : keys (upper rk) = some code)
    (hjob : jobInValues obs (normalizeJob jn) = true)
    (hcap : lookupCapacity caps (ljust8 (upper rk)) = some c)
    (hempty : (obs.filter fun r => r.key == code && r.jobName == normalizeJob jn) = []) :
    select obs caps rk jn = .ok [] := by
  unfold select
  rw [hcode]
  dsimp only
  rw [if_pos hjob, hcap]
  dsimp only
  rw [hempty]
  rfl

/-- Witness for the amended C9 at the concrete mismatched-key input. -/
theorem empty_filter_returns_empty_series_witness :
    select c9Obs exCaps "JQE" "JOB1" = .ok [] :=
  empty_filter_returns_empty_series c9Obs exCaps "JQE" "JOB1" "Q" 1000
    (by decide) (by decide) (by decide) (by decide)

theorem forall2_sublist {α β : Type} {R : α → β → Prop} :
    ∀ {l : List α} {out : List β}, List.Forall₂ R l out →
      ∀ {s : List β}, s.Sublist out →
        ∃ t : List α, t.Sublist l ∧ List.Forall₂ R t s := by
  intro l out h
  induction h with
  | nil =>
    intro s hs
    rw [List.sublist_nil] at hs
    subst hs
    exact ⟨[], List.Sublist.refl [], List.Forall₂.nil⟩
  | @cons a b l' out' hR hF ih =>
    intro s hs
    cases hs with
    | cons x hs' =>
      obtain ⟨t, ht, hf⟩ := ih hs'
      exact ⟨t, ht.cons a, hf⟩
    | cons₂ x hs' =>
      obtain ⟨t, ht, hf⟩ := ih hs'
      exact ⟨a :: t, ht.cons₂ a, List.Forall₂.cons hR hf⟩

/-- C10: selection preserves the relative source order of the
surviving rows and performs no sorting: every successful result is,
field for field, the image of an in-order sublist of the observation
input (filtering and cohort deduplication only remove rows). -/
theorem selection_preserves_order
    (obs : List Row) (caps : List CapRow) (rk jn : String) (s : List OutRow)
    (hok : select obs caps rk jn = .ok s) :
    ∃ t : List Row, t.Sublist obs ∧
      List.Forall₂ (fun (src : Row) (o : OutRow) =>
        o.key = src.key ∧ o.jobName = src.jobName ∧ o.taskId = src.taskId ∧
        o.startTime = src.startTime ∧ o.stckTime = src.stckTime ∧
        o.currentUsage = src.currentUsage ∧
        parseStamp src.dateTime = some o.dateTime) t s := by
  obtain ⟨code, c, rows, hk, hj, hc, hp, hs⟩ := select_ok_inv hok
  subst hs
  unfold parseRows at hp
  obtain ⟨t, ht, hf⟩ :=
    forall2_sublist (mapM_some_forall2 (parseRow c) hp) (glt_sublist rows)
  refine ⟨t, ht.trans (List.filter_sublist obs), ?_⟩
  refine hf.imp fun a b hab => ?_
  obtain ⟨h1, h2, h3, h4, h5, h6, h7, _⟩ := parseRow_some hab
  exact ⟨h1, h2, h3, h4, h5, h6, h7⟩

/-- Witness for C10 at the end-to-end example. -/
theorem selection_preserves_order_witness :
    ∃ t : List Row, t.Sublist exObs ∧
      List.Forall₂ (fun (src : Row) (o : OutRow) =>
        o.key = src.key ∧ o.jobName = src.jobName ∧ o.taskId = src.taskId ∧
        o.startTime = src.startTime ∧ o.stckTime = src.stckTime ∧
        o.currentUsage = src.currentUsage ∧
        parseStamp src.dateTime = some o.dateTime) t exOut :=
  selection_preserves_order exObs exCaps "JQE" "JOB1" exOut (by decide)
